import Mathlib

/-!
Verification of the niwa multi-agent hierarchical document store against its
natural-language specification.

The repository ships only the end-to-end CLI test suite and the token-count
helper (src/niwa/tokens.py); the core engine (Store, IdAllocator, Tree,
VersionLog, ReadTracker, ConflictEngine, MarkdownCodec, SearchIndex) is not
present under src/.  Those components are therefore modelled from the spec
(spec.md sections 3, 4 and 8), each carrying a doc comment that names the
missing source component.  The token counter is embedded directly from
src/niwa/tokens.py.
-/

namespace Niwa

/-- Shallow embedding of the function count_tokens from src/niwa/tokens.py.
The tiktoken cl100k_base encoder is an external library, abstracted here as an
arbitrary function producing a token list; the Python code is
if not text: return 0 else return len(encoder.encode(text)), and for a Python
str the condition not text holds exactly when the string is empty. -/
def count_tokens (encode : String → List Nat) (text : String) : Int :=
  if text = "" then 0 else ((encode text).length : Int)

/-- Modelled from the spec: stable node identifiers of the IdAllocator
(spec section 4.2), of the rendered form h{depth}_{ordinal}.  The identifier
is kept structured; rendering to the CLI string is a separate function. -/
structure NodeId where
  dep : Nat
  ord : Nat
deriving DecidableEq

/-- Modelled from the spec: the string form h{depth}_{ordinal} of a node id. -/
def NodeId.render (i : NodeId) : String :=
  "h" ++ toString i.dep ++ "_" ++ toString i.ord

/-- Per-depth ordinal counters persisted by the IdAllocator. -/
abbrev Counters := List (Nat × Nat)

/-- Modelled from the spec: the IdAllocator's persisted counter for a depth;
a depth that was never allocated reads as 0. -/
def counterOf (cs : Counters) (d : Nat) : Nat :=
  match cs.find? (fun e => decide (e.1 = d)) with
  | some e => e.2
  | none => 0

/-- Upsert of the persisted counter for depth d. -/
def bumpCounter (cs : Counters) (d : Nat) : Counters :=
  (d, counterOf cs d + 1) :: cs.filter (fun e => decide (e.1 ≠ d))

/-- Modelled from the spec: allocate(depth) of the IdAllocator (spec 4.2)
increments and returns; ordinals are monotonically increasing per depth. -/
def allocId (cs : Counters) (d : Nat) : NodeId × Counters :=
  (⟨d, counterOf cs d⟩, bumpCounter cs d)

/-- Run the allocator from given counters over a list of requested depths,
returning the allocated ids in order. -/
def allocRunAux (cs : Counters) : List Nat → List NodeId
  | [] => []
  | d :: ds =>
    let r := allocId cs d
    r.1 :: allocRunAux r.2 ds

/-- Run the allocator from the freshly initialized (empty) counter table. -/
def allocRun (ds : List Nat) : List NodeId :=
  allocRunAux [] ds

/-- Modelled from the spec: a Version row (spec section 3, entity Version).
An immutable record of a node's content at a point in time. -/
structure Version where
  node_id : NodeId
  version : Nat
  content : String
  author : String
  summary : Option String
  base_version : Option Nat
deriving DecidableEq

/-- Modelled from the spec: a Node record (spec section 3, entity Node). -/
structure Node where
  node_id : NodeId
  title : String
  depth : Nat
  parent_id : Option NodeId
  child_order : List NodeId
  current_version : Nat
deriving DecidableEq

/-- Conflict lifecycle status (spec section 3, entity Conflict). -/
inductive ConflictStatus where
  | pending
  | resolved
deriving DecidableEq

/-- The fixed set of mediated resolution actions (spec 4.6). -/
inductive Resolution where
  | ACCEPT_YOURS
  | ACCEPT_THEIRS
  | MERGE
deriving DecidableEq

/-- Modelled from the spec: a quarantined write (spec section 3, entity
Conflict). -/
structure Conflict where
  conflict_id : Nat
  node_id : NodeId
  losing_author : String
  losing_content : String
  losing_summary : Option String
  losing_base_version : Nat
  winning_version : Nat
  status : ConflictStatus
  resolution : Option Resolution
deriving DecidableEq

/-- Modelled from the spec: the durable state of the Store (spec 4.1) holding
nodes, the append-only version log, read receipts, conflicts and the
IdAllocator counters.  The spec's Agent bookkeeping records (agent_id,
first_seen, last_seen) are omitted: no claim mentions them and no operation
reads them back.  Timestamps are likewise omitted (no claim depends on real
time). -/
structure Store where
  nodes : List Node
  root_order : List NodeId
  versions : List Version
  reads : List ((String × NodeId) × Nat)
  conflicts : List Conflict
  counters : Counters
  next_conflict_id : Nat
deriving DecidableEq

/-- The store produced by init: an empty tree under the implicit root. -/
def emptyStore : Store :=
  ⟨[], [], [], [], [], [], 0⟩

/-- Look up a node record by id. -/
def findNode (st : Store) (nid : NodeId) : Option Node :=
  st.nodes.find? (fun n => decide (n.node_id = nid))

/-- Modelled from the spec: VersionLog.list(node_id) (spec 4.4), the per-node
slice of the append-only log in append order. -/
def versionsOf (st : Store) (nid : NodeId) : List Version :=
  st.versions.filter (fun v => decide (v.node_id = nid))

/-- Modelled from the spec: VersionLog.latest(node_id) (spec 4.4), the most
recently appended version of the node. -/
def latestVersion (st : Store) (nid : NodeId) : Option Version :=
  (versionsOf st nid).getLast?

/-- Content of the node's latest version, empty when the node has no log. -/
def latestContent (st : Store) (nid : NodeId) : String :=
  match latestVersion st nid with
  | some w => w.content
  | none => ""

/-- Modelled from the spec: ReadTracker.observed(agent, node_id) (spec 4.5). -/
def observed (st : Store) (agent : String) (nid : NodeId) : Option Nat :=
  match st.reads.find? (fun r => decide (r.1 = (agent, nid))) with
  | some r => some r.2
  | none => none

/-- Modelled from the spec: ReadTracker.record(agent, node_id, version)
(spec 4.5), an upsert keeping at most one receipt per (agent, node) pair. -/
def recordRead (st : Store) (agent : String) (nid : NodeId) (v : Nat) : Store :=
  { st with reads :=
      ((agent, nid), v) :: st.reads.filter (fun r => decide (r.1 ≠ (agent, nid))) }

/-- Modelled from the spec: ReadTracker.clear(agent, node_id) (spec 4.5). -/
def clearRead (st : Store) (agent : String) (nid : NodeId) : Store :=
  { st with reads := st.reads.filter (fun r => decide (r.1 ≠ (agent, nid))) }

/-- Advance (and optionally retitle) the node record with the given id,
leaving every other node unchanged. -/
def bumpNode (nid : NodeId) (newv : Nat) (newTitle : Option String) (n : Node) : Node :=
  if n.node_id = nid then
    { n with title := newTitle.getD n.title, current_version := newv }
  else n

/-- Append a version numbered cur + 1 with base_version = cur to the node's
log and advance (and optionally retitle) the node record. -/
def commitEdit (st : Store) (nid : NodeId) (cur : Nat) (newTitle : Option String)
    (content author : String) (summary : Option String) : Store :=
  { st with
    nodes := st.nodes.map (bumpNode nid (cur + 1) newTitle),
    versions := st.versions ++
      [{ node_id := nid, version := cur + 1, content := content, author := author,
         summary := summary, base_version := some cur }] }

/-- Outcome of the edit operation (spec 4.6 and section 7). -/
inductive EditOutcome where
  | success (new_version : Nat)
  | conflictDetected (losing winning : String)
  | unreadEdit
  | nodeNotFound
  | corruptState
deriving DecidableEq

/-- CLI exit code for an edit outcome (spec sections 6 and 7). -/
def exitCode : EditOutcome → Nat
  | .success _ => 0
  | .conflictDetected _ _ => 2
  | .unreadEdit => 1
  | .nodeNotFound => 1
  | .corruptState => 4

/-- Modelled from the spec: ConflictEngine.submit_edit (spec 4.6), the
admission control for every write after v1.  Steps follow the spec's
algorithm: load the latest version, read the agent's receipt, reject
unread edits, commit when observed equals the latest version (appending,
clearing the receipt and advancing in one transaction), quarantine a
conflict row when observed is stale, and flag corrupt state otherwise. -/
def submit_edit (st : Store) (agent : String) (nid : NodeId)
    (new_content : String) (summary : Option String) : Store × EditOutcome :=
  match findNode st nid, latestVersion st nid with
  | some node, some latest =>
    match observed st agent nid with
    | none => (st, .unreadEdit)
    | some obs =>
      if obs = latest.version then
        (clearRead
          (commitEdit st nid node.current_version none new_content agent summary)
          agent nid,
         .success (node.current_version + 1))
      else if obs < latest.version then
        ({ st with
           conflicts := st.conflicts ++
             [{ conflict_id := st.next_conflict_id, node_id := nid,
                losing_author := agent, losing_content := new_content,
                losing_summary := summary, losing_base_version := obs,
                winning_version := latest.version, status := .pending,
                resolution := none }],
           next_conflict_id := st.next_conflict_id + 1 },
         .conflictDetected new_content latest.content)
      else (st, .corruptState)
  | _, _ => (st, .nodeNotFound)

/-- Does some node with the given parent already carry this title?
Case-sensitive comparison, per spec invariant 3. -/
def hasSibling (st : Store) (parent : Option NodeId) (title : String) : Bool :=
  st.nodes.any (fun n => decide (n.parent_id = parent) && decide (n.title = title))

/-- Does some sibling other than the node itself carry this title? -/
def hasOtherSibling (st : Store) (nid : NodeId) (parent : Option NodeId)
    (title : String) : Bool :=
  st.nodes.any (fun n =>
    decide (n.node_id ≠ nid) && decide (n.parent_id = parent) && decide (n.title = title))

/-- Outcome of the create (add) operation (spec 4.3). -/
inductive CreateOutcome where
  | created (id : NodeId)
  | duplicateTitle
  | parentNotFound
  | depthExceeded
  | invalidTitle
deriving DecidableEq

/-- Modelled from the spec: Tree.create (spec 4.3), as driven by the add
command: validate the title, resolve the parent, validate depth ≤ 6, check
sibling title uniqueness, allocate an id, append to the parent's child_order
and write Version 1.  The CommandSurface's add passes the optional initial
content into Version 1 (spec section 6, content optional on add). -/
def create (st : Store) (title : String) (parent : Option NodeId)
    (author content : String) : Store × CreateOutcome :=
  if title = "" then (st, .invalidTitle)
  else
    match parent with
    | none =>
      if hasSibling st none title then (st, .duplicateTitle)
      else
        let a := allocId st.counters 1
        ({ st with
           nodes := st.nodes ++
             [{ node_id := a.1, title := title, depth := 1, parent_id := none,
                child_order := [], current_version := 1 }],
           root_order := st.root_order ++ [a.1],
           versions := st.versions ++
             [{ node_id := a.1, version := 1, content := content, author := author,
                summary := none, base_version := none }],
           counters := a.2 },
         .created a.1)
    | some pid =>
      match findNode st pid with
      | none => (st, .parentNotFound)
      | some p =>
        if 6 < p.depth + 1 then (st, .depthExceeded)
        else if hasSibling st (some pid) title then (st, .duplicateTitle)
        else
          let a := allocId st.counters (p.depth + 1)
          ({ st with
             nodes := (st.nodes.map (fun n =>
               if n.node_id = pid then { n with child_order := n.child_order ++ [a.1] }
               else n)) ++
               [{ node_id := a.1, title := title, depth := p.depth + 1,
                  parent_id := some pid, child_order := [], current_version := 1 }],
             versions := st.versions ++
               [{ node_id := a.1, version := 1, content := content, author := author,
                  summary := none, base_version := none }],
             counters := a.2 },
           .created a.1)

/-- Outcome of the rename (title) operation (spec 4.3). -/
inductive RenameOutcome where
  | renamed (new_version : Nat)
  | duplicateTitle
  | nodeNotFound
  | invalidTitle
  | corruptState
deriving DecidableEq

/-- Modelled from the spec: Tree.rename (spec 4.3): re-check sibling
uniqueness, then produce a new version whose content is unchanged; the title
lives on the node record, not in version content. -/
def rename (st : Store) (nid : NodeId) (newTitle : String) (author : String) :
    Store × RenameOutcome :=
  if newTitle = "" then (st, .invalidTitle)
  else
    match findNode st nid with
    | none => (st, .nodeNotFound)
    | some node =>
      if hasOtherSibling st nid node.parent_id newTitle then (st, .duplicateTitle)
      else
        match latestVersion st nid with
        | none => (st, .corruptState)
        | some w =>
          (commitEdit st nid node.current_version (some newTitle) w.content author none,
           .renamed (node.current_version + 1))

/-- Modelled from the spec: the read command (spec section 6): return the
latest content and record a read receipt for the agent. -/
def readNode (st : Store) (agent : String) (nid : NodeId) : Store × Option String :=
  match findNode st nid, latestVersion st nid with
  | some _, some w => (recordRead st agent nid w.version, some w.content)
  | _, _ => (st, none)

/-- Modelled from the spec: ReadTracker.peek (spec 4.5): read the latest
version WITHOUT recording a receipt. -/
def peek (st : Store) (nid : NodeId) : Store × Option String :=
  (st, (latestVersion st nid).map (fun w => w.content))

/-- The most recent pending conflict for the (node, agent) pair, per the
resolution rule fixed by the spec (spec 4.6 and design note (b)). -/
def pendingFor (st : Store) (nid : NodeId) (agent : String) : Option Conflict :=
  (st.conflicts.filter (fun c =>
    decide (c.node_id = nid) && decide (c.losing_author = agent) &&
      decide (c.status = ConflictStatus.pending))).getLast?

/-- Mark one conflict row resolved with the given action. -/
def markResolved (st : Store) (cid : Nat) (action : Resolution) : Store :=
  { st with conflicts := st.conflicts.map (fun c =>
      if c.conflict_id = cid then
        { c with status := .resolved, resolution := some action }
      else c) }

/-- Outcome of the resolve operation (spec 4.6). -/
inductive ResolveOutcome where
  | resolvedOk (new_version : Option Nat)
  | noPendingConflict
  | invalidArgs
  | corruptState
deriving DecidableEq

/-- Modelled from the spec: ConflictEngine.resolve (spec 4.6). ACCEPT_YOURS
commits the losing payload as a fresh edit based on the current version;
ACCEPT_THEIRS leaves node state alone; MERGE commits caller-supplied content.
All outcomes mark the conflict resolved and clear the resolving agent's
receipt. -/
def resolveOp (st : Store) (agent : String) (nid : NodeId) (action : Resolution)
    (merged : Option String) : Store × ResolveOutcome :=
  match pendingFor st nid agent with
  | none => (st, .noPendingConflict)
  | some c =>
    match findNode st nid with
    | none => (st, .corruptState)
    | some node =>
      match action with
      | .ACCEPT_THEIRS =>
        (clearRead (markResolved st c.conflict_id .ACCEPT_THEIRS) agent nid,
         .resolvedOk none)
      | .ACCEPT_YOURS =>
        (clearRead
          (markResolved
            (commitEdit st nid node.current_version none c.losing_content agent
              c.losing_summary)
            c.conflict_id .ACCEPT_YOURS)
          agent nid,
         .resolvedOk (some (node.current_version + 1)))
      | .MERGE =>
        match merged with
        | none => (st, .invalidArgs)
        | some m =>
          (clearRead
            (markResolved
              (commitEdit st nid node.current_version none m agent none)
              c.conflict_id .MERGE)
            agent nid,
           .resolvedOk (some (node.current_version + 1)))

/-- The state-mutating command surface the claims quantify over (spec 4.9).
The load command is a bulk sequence of creates and is subsumed by add for the
purposes of the state invariants. -/
inductive Op where
  | add (title : String) (parent : Option NodeId) (agent content : String)
  | read (agent : String) (nid : NodeId)
  | peek (nid : NodeId)
  | edit (agent : String) (nid : NodeId) (content : String) (summary : Option String)
  | rename (nid : NodeId) (newTitle : String) (agent : String)
  | resolve (agent : String) (nid : NodeId) (action : Resolution) (merged : Option String)

/-- One step of the command dispatcher: the store each operation leaves
behind. -/
def step (st : Store) : Op → Store
  | .add title parent agent content => (create st title parent agent content).1
  | .read agent nid => (readNode st agent nid).1
  | .peek nid => (peek st nid).1
  | .edit agent nid content summary => (submit_edit st agent nid content summary).1
  | .rename nid newTitle agent => (rename st nid newTitle agent).1
  | .resolve agent nid action merged => (resolveOp st agent nid action merged).1

/-- Run a sequence of operations from the freshly initialized store. -/
def runOps (ops : List Op) : Store :=
  ops.foldl step emptyStore

/-- Does the character list needle occur at the head of hay? -/
def beginsWith : List Char → List Char → Bool
  | [], _ => true
  | _ :: _, [] => false
  | a :: as, b :: bs => decide (a = b) && beginsWith as bs

/-- Does the character list needle occur contiguously anywhere in hay? -/
def hasSeg (needle : List Char) : List Char → Bool
  | [] => needle.isEmpty
  | b :: bs => beginsWith needle (b :: bs) || hasSeg needle bs

/-- Modelled from the spec: the SearchIndex's case-insensitive substring
match (spec 4.8): both sides are lowercased character-wise and the query must
occur contiguously. -/
def ciMatch (q s : String) : Bool :=
  hasSeg (q.toList.map Char.toLower) (s.toList.map Char.toLower)

/-- Does the node match the query on the surface title plus latest content
(spec 4.8)? -/
def matchNode (st : Store) (q : String) (nid : NodeId) : Bool :=
  match findNode st nid with
  | some n => ciMatch q n.title || ciMatch q (latestContent st nid)
  | none => false

/-- Fuelled worklist pre-order traversal: parent before children, children in
child_order (spec 4.3 traverse and the glossary's pre-order). -/
def preorderAux (st : Store) : Nat → List NodeId → List NodeId
  | 0, _ => []
  | _, [] => []
  | fuel + 1, nid :: rest =>
    match findNode st nid with
    | none => preorderAux st fuel rest
    | some n => nid :: preorderAux st fuel (n.child_order ++ rest)

/-- Traversal fuel ample for every acyclic store. -/
def fuelFor (st : Store) : Nat :=
  st.nodes.length * st.nodes.length + st.nodes.length + st.root_order.length + 1

/-- The pre-order listing of the tree's node ids. -/
def preorder (st : Store) : List NodeId :=
  preorderAux st (fuelFor st) st.root_order

/-- Fuelled pre-order traversal collecting only the matching node ids. -/
def searchAux (st : Store) (q : String) : Nat → List NodeId → List NodeId
  | 0, _ => []
  | _, [] => []
  | fuel + 1, nid :: rest =>
    match findNode st nid with
    | none => searchAux st q fuel rest
    | some n =>
      if ciMatch q n.title || ciMatch q (latestContent st nid) then
        nid :: searchAux st q fuel (n.child_order ++ rest)
      else searchAux st q fuel (n.child_order ++ rest)

/-- Modelled from the spec: SearchIndex.search (spec 4.8), computed on the
fly: case-insensitive substring match over title and latest content, results
in pre-order, empty query giving an empty result. -/
def search (st : Store) (q : String) : List NodeId :=
  if q = "" then [] else searchAux st q (fuelFor st) st.root_order

/-- The state invariant maintained by every operation: node ids are unique,
every node's log is the dense version sequence 1..current_version in order,
every version row belongs to a live node, and every node's ordinal lies below
the persisted counter of its depth (id freshness). -/
def Inv (st : Store) : Prop :=
  (st.nodes.map (fun n => n.node_id)).Nodup ∧
  (∀ n ∈ st.nodes, 1 ≤ n.current_version ∧
    (versionsOf st n.node_id).map (fun v => v.version) =
      List.range' 1 n.current_version) ∧
  (∀ v ∈ st.versions, ∃ n ∈ st.nodes, v.node_id = n.node_id) ∧
  (∀ n ∈ st.nodes, n.node_id.ord < counterOf st.counters n.node_id.dep)

instance (st : Store) : Decidable (Inv st) := by
  unfold Inv; infer_instance

/-- A line of a markdown document, as its characters (newlines excluded). -/
abbrev Line := List Char

/-- Is the character horizontal whitespace? -/
def isWs (c : Char) : Bool :=
  decide (c = ' ') || decide (c = '\t')

/-- A blank line: nothing but horizontal whitespace. -/
def isBlank (l : Line) : Bool :=
  l.all isWs

/-- Drop the trailing run of elements satisfying p. -/
def trimEnd {α : Type} (p : α → Bool) : List α → List α
  | [] => []
  | x :: xs =>
    let r := trimEnd p xs
    if r.isEmpty && p x then [] else x :: r

/-- Trim horizontal whitespace from both ends of a line. -/
def trimLine (l : Line) : Line :=
  trimEnd isWs (l.dropWhile isWs)

/-- Strip leading and trailing blank lines of a content block, preserving
internal blank lines (spec 4.7). -/
def stripBlanks (ls : List Line) : List Line :=
  trimEnd isBlank (ls.dropWhile isBlank)

/-- Length of the leading run of hash marks. -/
def headDepth (l : Line) : Nat :=
  (l.takeWhile (fun c => decide (c = '#'))).length

/-- Modelled from the spec: the heading test of MarkdownCodec.parse
(spec 4.7), the line pattern of one to six leading hashes, at least one
space, and at least one further character. -/
def isHeading (l : Line) : Bool :=
  let d := headDepth l
  decide (1 ≤ d) && decide (d ≤ 6) &&
    (match l.drop d with
     | ' ' :: _ :: _ => true
     | _ => false)

/-- The trimmed remainder of a heading line: its title. -/
def titleOf (l : Line) : Line :=
  trimLine (l.drop (headDepth l))

/-- Split lines into the preamble (lines before the first heading) and, for
each heading, the heading line together with its raw following block. -/
def segs : List Line → List Line × List (Line × List Line)
  | [] => ([], [])
  | l :: ls =>
    let r := segs ls
    if isHeading l then ([], (l, r.1) :: r.2) else (l :: r.1, r.2)

/-- One parsed document node: heading depth, trimmed title, canonicalized
content block, and the index of the parent entry (none for depth-1 nodes,
which sit under the implicit root). -/
structure Entry where
  depth : Nat
  title : Line
  content : List Line
  parent : Option Nat
deriving DecidableEq

/-- A parsed document: the canonicalized preamble (content of the implicit
root) and the node entries in pre-order. -/
structure Doc where
  pre : List Line
  entries : List Entry
deriving DecidableEq

/-- Parse failure: a heading deeper than 1 with no ancestor (spec 4.7). -/
inductive CodecErr where
  | orphanedHeading
deriving DecidableEq

instance : DecidableEq (Except CodecErr Doc) := fun a b =>
  match a, b with
  | Except.ok x, Except.ok y =>
    if h : x = y then isTrue (by rw [h]) else isFalse (by simp [h])
  | Except.error e, Except.error f =>
    if h : e = f then isTrue (by rw [h]) else isFalse (fun hc => by cases hc; exact h rfl)
  | Except.ok _, Except.error _ => isFalse (by simp)
  | Except.error _, Except.ok _ => isFalse (by simp)

/-- Index of the last element of ds strictly below d, if any: the most recent
candidate ancestor for a heading of depth d (spec 4.7). -/
def lastLower (ds : List Nat) (d : Nat) : Option Nat :=
  (List.range ds.length).foldl
    (fun acc j => if ds.getD j 0 < d then some j else acc) none

/-- Attach parent indices to the scanned (depth, title, content) triples; prev
holds the depths of the already-attached entries.  A heading of depth 1 sits
under the implicit root; a deeper heading is adopted by the most recent
strictly shallower entry, and fails as orphaned when none exists. -/
def attachParents (prev : List Nat) :
    List (Nat × Line × List Line) → Except CodecErr (List Entry)
  | [] => Except.ok []
  | (d, t, c) :: rest =>
    match
      (if d ≤ 1 then Except.ok (none : Option Nat)
       else
         match lastLower prev d with
         | some j => Except.ok (some j)
         | none => Except.error CodecErr.orphanedHeading) with
    | Except.error e => Except.error e
    | Except.ok p =>
      match attachParents (prev ++ [d]) rest with
      | Except.error e => Except.error e
      | Except.ok es =>
        Except.ok ({ depth := d, title := t, content := c, parent := p } :: es)

/-- Modelled from the spec: MarkdownCodec.parse (spec 4.7) over a document
given as its list of lines.  The line scan opens a node per heading line,
gives it the trimmed remainder as title and the blank-stripped following
block as content, attaches parents by the most-recent-shallower rule, and
treats text before the first heading as the implicit root's content. -/
def parseLines (ls : List Line) : Except CodecErr Doc :=
  let s := segs ls
  match attachParents []
      (s.2.map (fun hb => (headDepth hb.1, titleOf hb.1, stripBlanks hb.2))) with
  | Except.error e => Except.error e
  | Except.ok es => Except.ok { pre := stripBlanks s.1, entries := es }

/-- The emitted heading line of a node: depth hashes, a space, the title. -/
def headingLine (d : Nat) (t : Line) : Line :=
  List.replicate d '#' ++ ' ' :: t

/-- Modelled from the spec: MarkdownCodec.serialize (spec 4.7): the implicit
root's content without a heading, then each node in pre-order as its heading
line, a blank line, its content, and a blank line. -/
def serialize (doc : Doc) : List Line :=
  doc.pre ++ doc.entries.flatMap (fun e =>
    headingLine e.depth e.title :: ([] : Line) :: (e.content ++ [([] : Line)]))

/-- A concrete scenario used by witnesses: one node created by a1, read by
a1 and a2 at version 1, then edited by a1 (to version 2, content x). -/
def exampleStore : Store :=
  runOps [Op.add "A" none "a1" "", Op.read "a1" ⟨1, 0⟩, Op.read "a2" ⟨1, 0⟩,
    Op.edit "a1" ⟨1, 0⟩ "x" none]

/-- A concrete scenario used by witnesses: one node created and read by a1. -/
def exampleRead : Store :=
  runOps [Op.add "A" none "a1" "", Op.read "a1" ⟨1, 0⟩]

/-- A concrete scenario used by witnesses: one node created by a1, unread. -/
def exampleAdd : Store :=
  runOps [Op.add "A" none "a1" ""]

/-- A concrete scenario used by witnesses: two top-level parents, the first
already holding a child titled Notes. -/
def exampleTwoParents : Store :=
  runOps [Op.add "P1" none "a1" "", Op.add "P2" none "a1" "",
    Op.add "Notes" (some ⟨1, 0⟩) "a1" ""]

/-! ## Theorems -/

lemma find?_filter_of_imp {α : Type} (l : List α) (p q : α → Bool)
    (h : ∀ x, p x = true → q x = true) :
    (l.filter q).find? p = l.find? p := by
  induction l with
  | nil => rfl
  | cons a l ih =>
    by_cases hq : q a = true
    · rw [List.filter_cons_of_pos hq]
      by_cases hp : p a = true
      · rw [List.find?_cons_of_pos _ hp, List.find?_cons_of_pos _ hp]
      · rw [List.find?_cons_of_neg _ (by simpa using hp),
          List.find?_cons_of_neg _ (by simpa using hp), ih]
    · have hp : ¬p a = true := fun hpa => hq (h a hpa)
      rw [List.filter_cons_of_neg (by simpa using hq),
        List.find?_cons_of_neg _ (by simpa using hp), ih]

lemma counterOf_bump_self (cs : Counters) (d : Nat) :
    counterOf (bumpCounter cs d) d = counterOf cs d + 1 := by
  unfold counterOf bumpCounter
  rw [List.find?_cons_of_pos _ (by simp)]
  rfl

lemma counterOf_bump_ne (cs : Counters) (d d' : Nat) (h : d' ≠ d) :
    counterOf (bumpCounter cs d) d' = counterOf cs d' := by
  unfold counterOf bumpCounter
  rw [List.find?_cons_of_neg _ (by simpa using fun he => (h he.symm).elim),
    find?_filter_of_imp]
  intro x hx
  simp only [decide_eq_true_eq] at hx ⊢
  exact fun hxd => h (hx ▸ hxd ▸ rfl)

lemma allocRunAux_getElem (ds : List Nat) :
    ∀ (cs : Counters) (i d : Nat), ds[i]? = some d →
      (allocRunAux cs ds)[i]? =
        some ⟨d, counterOf cs d + (ds.take i).count d⟩ := by
  induction ds with
  | nil => intro cs i d h; simp at h
  | cons d0 ds ih =>
    intro cs i d h
    cases i with
    | zero =>
      simp only [List.getElem?_cons, if_pos rfl] at h
      cases h
      simp [allocRunAux, allocId]
    | succ i =>
      simp only [List.getElem?_cons, Nat.succ_ne_zero, if_neg, Nat.add_sub_cancel] at h
      have hrec := ih (bumpCounter cs d0) i d h
      simp only [allocRunAux, allocId, List.getElem?_cons, Nat.succ_ne_zero, if_neg,
        Nat.add_sub_cancel]
      rw [hrec, List.take_succ_cons, List.count_cons]
      by_cases hd : d0 = d
      · subst hd
        rw [counterOf_bump_self]
        simp [Nat.add_comm, Nat.add_assoc, Nat.add_left_comm]
      · rw [counterOf_bump_ne cs d0 d (fun he => hd he.symm)]
        simp [hd]

/-- Claim C9: in a freshly initialized store the IdAllocator's per-depth
ordinal counters start at 0, so the n-th allocation at depth d (counting from
0, across any interleaving of depths) receives the id h{d}_{n}. -/
theorem idAllocator_ordinals :
    (∀ d, counterOf emptyStore.counters d = 0) ∧
    (∀ (ds : List Nat) (i d : Nat), ds[i]? = some d →
      (allocRun ds)[i]? = some ⟨d, (ds.take i).count d⟩ ∧
        NodeId.render ⟨d, (ds.take i).count d⟩ =
          "h" ++ toString d ++ "_" ++ toString ((ds.take i).count d)) := by
  refine ⟨fun d => rfl, fun ds i d h => ⟨?_, rfl⟩⟩
  have := allocRunAux_getElem ds [] i d h
  simpa [allocRun, counterOf] using this

/-- Witness for C9: in [1, 1, 2] the second depth-1 allocation (index 1)
receives ordinal 1, rendered h1_1. -/
theorem idAllocator_ordinals_witness :
    ([1, 1, 2] : List Nat)[1]? = some 1 ∧
      (allocRun [1, 1, 2])[1]? =
        some ⟨1, (([1, 1, 2] : List Nat).take 1).count 1⟩ :=
  ⟨by decide, (idAllocator_ordinals.2 [1, 1, 2] 1 1 (by decide)).1⟩

/-- Claim C10: count_tokens returns a non-negative integer for every input
and returns 0 on the empty string without consulting the encoder. -/
theorem count_tokens_spec :
    ∀ (encode : String → List Nat) (text : String),
      0 ≤ count_tokens encode text ∧ count_tokens encode "" = 0 := by
  intro encode text
  refine ⟨?_, rfl⟩
  unfold count_tokens
  split
  · exact le_refl 0
  · exact Int.natCast_nonneg _

lemma foldl_peeks (ops : List Op) (h : ∀ op ∈ ops, ∃ n, op = Op.peek n) :
    ∀ st : Store, ops.foldl step st = st := by
  induction ops with
  | nil => intro st; rfl
  | cons op ops ih =>
    intro st
    obtain ⟨n, rfl⟩ := h op (List.mem_cons_self op ops)
    have htail : ∀ op ∈ ops, ∃ n, op = Op.peek n :=
      fun op hop => h op (List.mem_cons_of_mem _ hop)
    calc (Op.peek n :: ops).foldl step st = ops.foldl step st := rfl
    _ = st := ih htail st

/-- Claim C6: a sequence consisting only of peek calls leaves the store, and
in particular the ReadTracker's observed versions, exactly as it found them:
peek never records a receipt. -/
theorem peek_purity :
    ∀ (st : Store) (ops : List Op), (∀ op ∈ ops, ∃ n, op = Op.peek n) →
      ops.foldl step st = st ∧
        ∀ (agent : String) (nid : NodeId),
          observed (ops.foldl step st) agent nid = observed st agent nid := by
  intro st ops h
  refine ⟨foldl_peeks ops h st, fun agent nid => ?_⟩
  rw [foldl_peeks ops h st]

/-- Witness for C6: one concrete peek on the empty store changes nothing. -/
theorem peek_purity_witness :
    [Op.peek ⟨1, 0⟩].foldl step emptyStore = emptyStore :=
  (peek_purity emptyStore [Op.peek ⟨1, 0⟩]
    (by intro op hop; simp only [List.mem_singleton] at hop; exact ⟨⟨1, 0⟩, hop⟩)).1

lemma findNode_mem {st : Store} {nid : NodeId} {node : Node}
    (h : findNode st nid = some node) : node ∈ st.nodes ∧ node.node_id = nid := by
  unfold findNode at h
  exact ⟨List.mem_of_find?_eq_some h, by simpa using List.find?_some h⟩

lemma latest_of_inv (st : Store) (nid : NodeId) (node : Node) (hInv : Inv st)
    (h : findNode st nid = some node) :
    ∃ w, latestVersion st nid = some w ∧ w.version = node.current_version := by
  obtain ⟨hmem, hid⟩ := findNode_mem h
  obtain ⟨hpos, hdense⟩ := hInv.2.1 node hmem
  rw [hid] at hdense
  have hlast := List.getLast?_map (fun v => v.version) (versionsOf st nid)
  rw [hdense, List.getLast?_range'] at hlast
  rw [if_neg (by omega)] at hlast
  cases hg : (versionsOf st nid).getLast? with
  | none =>
    rw [hg, show Option.map (fun v : Version => v.version) none = none from rfl] at hlast
    exact (Option.some_ne_none _ hlast).elim
  | some w =>
    rw [hg, show Option.map (fun v : Version => v.version) (some w) = some w.version
      from rfl] at hlast
    have hwv : w.version = node.current_version := by
      have := Option.some.inj hlast
      omega
    exact ⟨w, hg, hwv⟩

/-- Claim C1: a stale edit (the agent's observed version strictly below the
node's current version) leaves the nodes, version log and receipts untouched,
appends exactly one pending Conflict row whose winning_version is the node's
current version and whose losing payload is the submitted edit, and fails
with ConflictDetected (exit code 2) carrying the losing and the winning
content. -/
theorem submit_edit_conflict :
    ∀ (st : Store) (agent : String) (nid : NodeId) (content : String)
      (summary : Option String) (node : Node) (obs : Nat),
      Inv st → findNode st nid = some node → observed st agent nid = some obs →
      obs < node.current_version →
      ∃ w, latestVersion st nid = some w ∧ w.version = node.current_version ∧
        submit_edit st agent nid content summary =
          ({ st with
             conflicts := st.conflicts ++
               [{ conflict_id := st.next_conflict_id, node_id := nid,
                  losing_author := agent, losing_content := content,
                  losing_summary := summary, losing_base_version := obs,
                  winning_version := node.current_version,
                  status := ConflictStatus.pending, resolution := none }],
             next_conflict_id := st.next_conflict_id + 1 },
           EditOutcome.conflictDetected content w.content) ∧
        exitCode (EditOutcome.conflictDetected content w.content) = 2 := by
  intro st agent nid content summary node obs hInv hfind hobs hlt
  obtain ⟨w, hw, hwv⟩ := latest_of_inv st nid node hInv hfind
  refine ⟨w, hw, hwv, ?_, rfl⟩
  unfold submit_edit
  rw [hfind, hw, hobs]
  dsimp only
  rw [if_neg (by omega), if_pos (by omega), hwv]

/-- Witness for C1: in the example scenario, the stale edit by a2 is
quarantined with the winning content x. -/
theorem submit_edit_conflict_witness :
    (submit_edit exampleStore "a2" ⟨1, 0⟩ "y" none).2 =
      EditOutcome.conflictDetected "y" "x" := by
  obtain ⟨w, hw, hwv, heq, hex⟩ :=
    submit_edit_conflict exampleStore "a2" ⟨1, 0⟩ "y" none
      { node_id := ⟨1, 0⟩, title := "A", depth := 1, parent_id := none,
        child_order := [], current_version := 2 }
      1 (by decide) (by decide) (by decide) (by decide)
  have hwc : w.content = "x" := by
    have h2 : latestVersion exampleStore ⟨1, 0⟩ =
        some { node_id := ⟨1, 0⟩, version := 2, content := "x", author := "a1",
               summary := none, base_version := some 1 } := by decide
    rw [hw] at h2
    rw [Option.some.inj h2]
  rw [heq, hwc]

lemma observed_clearRead (st : Store) (agent : String) (nid : NodeId) :
    observed (clearRead st agent nid) agent nid = none := by
  have hnone : (st.reads.filter (fun r => decide (r.1 ≠ (agent, nid)))).find?
      (fun r => decide (r.1 = (agent, nid))) = none := by
    rw [List.find?_eq_none]
    intro x hx
    have hne := (List.mem_filter.mp hx).2
    simp only [decide_eq_true_eq] at hne ⊢
    exact hne
  unfold observed clearRead
  dsimp only
  rw [hnone]

lemma findNode_commitEdit (st : Store) (nid : NodeId) (node : Node) (cur : Nat)
    (t : Option String) (c a : String) (s : Option String)
    (h : findNode st nid = some node) :
    findNode (commitEdit st nid cur t c a s) nid =
      some { node with title := t.getD node.title, current_version := cur + 1 } := by
  obtain ⟨_, hid⟩ := findNode_mem h
  unfold findNode commitEdit
  dsimp only
  rw [List.find?_map]
  have hp : ((fun n : Node => decide (n.node_id = nid)) ∘ bumpNode nid (cur + 1) t) =
      (fun n : Node => decide (n.node_id = nid)) := by
    funext n
    by_cases hn : n.node_id = nid
    · simp [Function.comp, bumpNode, hn]
    · simp [Function.comp, bumpNode, hn]
  rw [hp]
  unfold findNode at h
  rw [h, show Option.map (bumpNode nid (cur + 1) t) (some node) =
      some (bumpNode nid (cur + 1) t node) from rfl]
  unfold bumpNode
  rw [if_pos hid]

/-- Claim C2: an up-to-date edit (observed equals current_version) commits:
it appends exactly one version with base_version equal to the observed
version, advances current_version by 1, clears the author's read receipt for
the node, leaves conflicts untouched, and returns the new version number. -/
theorem submit_edit_commit :
    ∀ (st : Store) (agent : String) (nid : NodeId) (content : String)
      (summary : Option String) (node : Node),
      Inv st → findNode st nid = some node →
      observed st agent nid = some node.current_version →
      ∃ st', submit_edit st agent nid content summary =
          (st', EditOutcome.success (node.current_version + 1)) ∧
        st'.versions = st.versions ++
          [{ node_id := nid, version := node.current_version + 1,
             content := content, author := agent, summary := summary,
             base_version := some node.current_version }] ∧
        observed st' agent nid = none ∧
        findNode st' nid =
          some { node with current_version := node.current_version + 1 } ∧
        st'.conflicts = st.conflicts := by
  intro st agent nid content summary node hInv hfind hobs
  obtain ⟨w, hw, hwv⟩ := latest_of_inv st nid node hInv hfind
  refine ⟨clearRead
      (commitEdit st nid node.current_version none content agent summary) agent nid,
    ?_, rfl, observed_clearRead _ agent nid, ?_, rfl⟩
  · unfold submit_edit
    rw [hfind, hw, hobs]
    dsimp only
    rw [if_pos (by omega)]
  · exact findNode_commitEdit st nid node node.current_version none content agent
      summary hfind

/-- Witness for C2: in the read example, a1's edit commits as version 2. -/
theorem submit_edit_commit_witness :
    (submit_edit exampleRead "a1" ⟨1, 0⟩ "z" none).2 = EditOutcome.success 2 := by
  obtain ⟨st', heq, _, _, _, _⟩ :=
    submit_edit_commit exampleRead "a1" ⟨1, 0⟩ "z" none
      { node_id := ⟨1, 0⟩, title := "A", depth := 1, parent_id := none,
        child_order := [], current_version := 1 }
      (by decide) (by decide) (by decide)
  rw [heq]

/-- Claim C3: an edit of an existing node by an agent holding no read
receipt is rejected with UnreadEdit and the store is left entirely
unchanged: no version is appended and no conflict is created. -/
theorem submit_edit_unread :
    ∀ (st : Store) (agent : String) (nid : NodeId) (content : String)
      (summary : Option String) (node : Node),
      Inv st → findNode st nid = some node → observed st agent nid = none →
      submit_edit st agent nid content summary = (st, EditOutcome.unreadEdit) := by
  intro st agent nid content summary node hInv hfind hobs
  obtain ⟨w, hw, _⟩ := latest_of_inv st nid node hInv hfind
  unfold submit_edit
  rw [hfind, hw, hobs]

/-- Witness for C3: an unread edit on the freshly created node is rejected
and the store is unchanged. -/
theorem submit_edit_unread_witness :
    submit_edit exampleAdd "a2" ⟨1, 0⟩ "z" none = (exampleAdd, EditOutcome.unreadEdit) :=
  submit_edit_unread exampleAdd "a2" ⟨1, 0⟩ "z" none
    { node_id := ⟨1, 0⟩, title := "A", depth := 1, parent_id := none,
      child_order := [], current_version := 1 }
    (by decide) (by decide) (by decide)

/-- Claim C5: sibling titles are unique under case-sensitive comparison.  A
create or rename that would duplicate a sibling title fails with
DuplicateTitle and leaves the store unchanged, while a create whose title is
free among its siblings (in particular the same title under a different
parent) succeeds. -/
theorem sibling_title_unique :
    (∀ (st : Store) (t : String) (p : Option NodeId) (a c : String),
      t ≠ "" →
      (∀ pid, p = some pid → ∃ q, findNode st pid = some q ∧ q.depth + 1 ≤ 6) →
      hasSibling st p t = true →
      create st t p a c = (st, CreateOutcome.duplicateTitle)) ∧
    (∀ (st : Store) (t : String) (p : Option NodeId) (a c : String),
      t ≠ "" →
      (∀ pid, p = some pid → ∃ q, findNode st pid = some q ∧ q.depth + 1 ≤ 6) →
      hasSibling st p t = false →
      ∃ id st', create st t p a c = (st', CreateOutcome.created id)) ∧
    (∀ (st : Store) (nid : NodeId) (node : Node) (t a : String),
      findNode st nid = some node → t ≠ "" →
      hasOtherSibling st nid node.parent_id t = true →
      rename st nid t a = (st, RenameOutcome.duplicateTitle)) := by
  refine ⟨?_, ?_, ?_⟩
  · intro st t p a c ht hp hdup
    unfold create
    rw [if_neg ht]
    cases p with
    | none => rw [if_pos hdup]
    | some pid =>
      obtain ⟨q, hq, hd⟩ := hp pid rfl
      dsimp only
      rw [hq]
      dsimp only
      rw [if_neg (by omega), if_pos hdup]
  · intro st t p a c ht hp hdup
    unfold create
    rw [if_neg ht]
    cases p with
    | none =>
      rw [if_neg (by simp [hdup])]
      exact ⟨_, _, rfl⟩
    | some pid =>
      obtain ⟨q, hq, hd⟩ := hp pid rfl
      dsimp only
      rw [hq]
      dsimp only
      rw [if_neg (by omega), if_neg (by simp [hdup])]
      exact ⟨_, _, rfl⟩
  · intro st nid node t a hfind ht hdup
    unfold rename
    rw [if_neg ht, hfind]
    dsimp only
    rw [if_pos hdup]

/-- Witness for C5: with Notes already under P1, creating Notes under P1
fails with DuplicateTitle and changes nothing, while creating Notes under P2
succeeds. -/
theorem sibling_title_unique_witness :
    create exampleTwoParents "Notes" (some ⟨1, 0⟩) "a1" "" =
      (exampleTwoParents, CreateOutcome.duplicateTitle) ∧
    ∃ id st', create exampleTwoParents "Notes" (some ⟨1, 1⟩) "a1" "" =
      (st', CreateOutcome.created id) := by
  constructor
  · refine sibling_title_unique.1 exampleTwoParents "Notes" (some ⟨1, 0⟩) "a1" ""
      (by decide) ?_ (by decide)
    intro pid hp
    cases hp
    exact ⟨{ node_id := ⟨1, 0⟩, title := "P1", depth := 1, parent_id := none,
             child_order := [⟨2, 0⟩], current_version := 1 }, by decide, by decide⟩
  · refine sibling_title_unique.2.1 exampleTwoParents "Notes" (some ⟨1, 1⟩) "a1" ""
      (by decide) ?_ (by decide)
    intro pid hp
    cases hp
    exact ⟨{ node_id := ⟨1, 1⟩, title := "P2", depth := 1, parent_id := none,
             child_order := [], current_version := 1 }, by decide, by decide⟩

lemma searchAux_eq_filter (st : Store) (q : String) :
    ∀ (fuel : Nat) (w : List NodeId),
      searchAux st q fuel w = (preorderAux st fuel w).filter (matchNode st q) := by
  intro fuel
  induction fuel with
  | zero => intro w; simp [searchAux, preorderAux]
  | succ fuel ih =>
    intro w
    cases w with
    | nil => simp [searchAux, preorderAux]
    | cons nid rest =>
      simp only [searchAux, preorderAux]
      cases hf : findNode st nid with
      | none =>
        dsimp only
        exact ih rest
      | some n =>
        dsimp only
        have hm : matchNode st q nid =
            (ciMatch q n.title || ciMatch q (latestContent st nid)) := by
          unfold matchNode
          rw [hf]
        rw [List.filter_cons, ← hm]
        by_cases hc : matchNode st q nid = true
        · rw [if_pos hc, if_pos hc, ih]
        · rw [if_neg hc, if_neg hc, ih]

/-- Claim C8: search returns exactly the node ids whose title or latest
content contains the query as a case-insensitive substring, listed in
pre-order of the tree; an empty query, like a query matching nothing, yields
an empty result rather than an error. -/
theorem search_spec :
    ∀ (st : Store) (q : String),
      search st "" = [] ∧
      (q ≠ "" →
        search st q = (preorder st).filter (matchNode st q) ∧
        ∀ nid, nid ∈ search st q ↔ nid ∈ preorder st ∧ matchNode st q nid = true) := by
  intro st q
  constructor
  · simp [search]
  · intro hq
    have h : search st q = (preorder st).filter (matchNode st q) := by
      unfold search preorder
      rw [if_neg hq]
      exact searchAux_eq_filter st q (fuelFor st) st.root_order
    exact ⟨h, fun nid => by rw [h]; exact List.mem_filter⟩

/-- Witness for C8: searching a for the node titled A (case-insensitive)
returns exactly the pre-order filter of the match predicate. -/
theorem search_spec_witness :
    search exampleAdd "a" = (preorder exampleAdd).filter (matchNode exampleAdd "a") :=
  ((search_spec exampleAdd "a").2 (by decide)).1

lemma Inv_of_eq (st st' : Store) (hn : st'.nodes = st.nodes)
    (hv : st'.versions = st.versions) (hc : st'.counters = st.counters)
    (h : Inv st) : Inv st' := by
  unfold Inv versionsOf at h ⊢
  rw [hn, hv, hc]
  exact h

lemma Inv_emptyStore : Inv emptyStore := by
  refine ⟨List.nodup_nil, ?_, ?_, ?_⟩ <;> intro x hx <;> cases hx

lemma eq_of_same_id {st : Store} (hInv : Inv st) {n m : Node}
    (hn : n ∈ st.nodes) (hm : m ∈ st.nodes) (h : n.node_id = m.node_id) : n = m :=
  List.inj_on_of_nodup_map hInv.1 hn hm h

lemma versionsOf_append (st : Store) (vs : List Version) (v : Version)
    (hv : vs = st.versions ++ [v]) (x : NodeId) :
    vs.filter (fun u => decide (u.node_id = x)) =
      versionsOf st x ++ (if v.node_id = x then [v] else []) := by
  rw [hv, List.filter_append]
  unfold versionsOf
  congr 1
  rw [List.filter_singleton]
  by_cases h : v.node_id = x
  · simp [h]
  · simp [h]

lemma versionsOf_commitEdit (st : Store) (nid : NodeId) (cur : Nat)
    (t : Option String) (c a : String) (s : Option String) (x : NodeId) :
    versionsOf (commitEdit st nid cur t c a s) x =
      versionsOf st x ++
        (if nid = x then
          [{ node_id := nid, version := cur + 1, content := c, author := a,
             summary := s, base_version := some cur }] else []) := by
  have h := versionsOf_append st (commitEdit st nid cur t c a s).versions
    { node_id := nid, version := cur + 1, content := c, author := a,
      summary := s, base_version := some cur } rfl x
  exact h

lemma bumpNode_id (nid : NodeId) (newv : Nat) (t : Option String) (n : Node) :
    (bumpNode nid newv t n).node_id = n.node_id := by
  unfold bumpNode
  split <;> rfl

lemma map_node_id_bumpNode (nid : NodeId) (newv : Nat) (t : Option String)
    (l : List Node) :
    (l.map (bumpNode nid newv t)).map (fun n => n.node_id) =
      l.map (fun n => n.node_id) := by
  rw [List.map_map]
  exact List.map_congr_left (fun n _ => bumpNode_id nid newv t n)


lemma Inv_commitEdit (st : Store) (nid : NodeId) (node : Node) (t : Option String)
    (c a : String) (s : Option String) (hInv : Inv st)
    (hfind : findNode st nid = some node) :
    Inv (commitEdit st nid node.current_version t c a s) := by
  obtain ⟨hmem, hid⟩ := findNode_mem hfind
  obtain ⟨hNodup, hDense, hCoh, hCnt⟩ := hInv
  have hInv' : Inv st := ⟨hNodup, hDense, hCoh, hCnt⟩
  have hvers := versionsOf_commitEdit st nid node.current_version t c a s
  refine ⟨?_, ?_, ?_, ?_⟩
  · show ((st.nodes.map (bumpNode nid (node.current_version + 1) t)).map
      (fun n => n.node_id)).Nodup
    rw [map_node_id_bumpNode]
    exact hNodup
  · intro n' hmem'
    obtain ⟨n, hn, hfn⟩ := List.mem_map.mp hmem'
    subst hfn
    rw [bumpNode_id, hvers n.node_id]
    by_cases hnid : n.node_id = nid
    · have hnn : n = node := eq_of_same_id hInv' hn hmem (hnid.trans hid.symm)
      subst hnn
      have hcv : (bumpNode nid (n.current_version + 1) t n).current_version =
          n.current_version + 1 := by
        unfold bumpNode
        rw [if_pos hnid]
      rw [hcv, if_pos hnid.symm]
      obtain ⟨hpos, hd⟩ := hDense n hn
      refine ⟨by omega, ?_⟩
      rw [List.map_append, hd]
      show _ ++ [n.current_version + 1] = _
      rw [List.range'_concat 1 n.current_version]
      congr 1
      simp [Nat.add_comm]
    · have hb : bumpNode nid (node.current_version + 1) t n = n := by
        unfold bumpNode
        rw [if_neg hnid]
      rw [hb, if_neg (fun h => hnid h.symm), List.append_nil]
      exact hDense n hn
  · intro v hv
    rcases List.mem_append.mp hv with h | h
    · obtain ⟨m, hm, he⟩ := hCoh v h
      exact ⟨bumpNode nid (node.current_version + 1) t m, List.mem_map_of_mem _ hm,
        by rw [bumpNode_id]; exact he⟩
    · rw [List.mem_singleton] at h
      subst h
      refine ⟨bumpNode nid (node.current_version + 1) t node,
        List.mem_map_of_mem _ hmem, ?_⟩
      rw [bumpNode_id]
      exact hid.symm
  · intro n' hmem'
    obtain ⟨n, hn, hfn⟩ := List.mem_map.mp hmem'
    subst hfn
    rw [bumpNode_id]
    exact hCnt n hn


lemma fresh_not_mem (st : Store)
    (hCnt : ∀ n ∈ st.nodes, n.node_id.ord < counterOf st.counters n.node_id.dep)
    (d : Nat) : ∀ n ∈ st.nodes, n.node_id ≠ ⟨d, counterOf st.counters d⟩ := by
  intro n hn he
  have h := hCnt n hn
  rw [he] at h
  exact Nat.lt_irrefl _ h

lemma versionsOf_fresh (st : Store) (hInv : Inv st) (d : Nat) :
    versionsOf st ⟨d, counterOf st.counters d⟩ = [] := by
  unfold versionsOf
  rw [List.filter_eq_nil_iff]
  intro v hv
  obtain ⟨n, hn, he⟩ := hInv.2.2.1 v hv
  simp only [decide_eq_true_eq]
  intro hvid
  exact fresh_not_mem st hInv.2.2.2 d n hn (by rw [← he, hvid])

lemma counter_bound_bump (cs : Counters) (d : Nat) (i : NodeId)
    (h : i.ord < counterOf cs i.dep) :
    i.ord < counterOf (bumpCounter cs d) i.dep := by
  by_cases hd : i.dep = d
  · rw [hd, counterOf_bump_self]
    rw [hd] at h
    omega
  · rw [counterOf_bump_ne _ _ _ hd]
    exact h

lemma Inv_insert (st st' : Store) (g : Node → Node) (d : Nat) (newNode : Node)
    (v1 : Version)
    (hg_id : ∀ n, (g n).node_id = n.node_id)
    (hg_cv : ∀ n, (g n).current_version = n.current_version)
    (hnew_id : newNode.node_id = ⟨d, counterOf st.counters d⟩)
    (hnew_cv : newNode.current_version = 1)
    (hv_id : v1.node_id = newNode.node_id)
    (hv_ver : v1.version = 1)
    (hnodes : st'.nodes = st.nodes.map g ++ [newNode])
    (hvers : st'.versions = st.versions ++ [v1])
    (hcnt : st'.counters = bumpCounter st.counters d)
    (hInv : Inv st) : Inv st' := by
  obtain ⟨hNodup, hDense, hCoh, hCnt⟩ := hInv
  have hInv' : Inv st := ⟨hNodup, hDense, hCoh, hCnt⟩
  have hfresh : ∀ n ∈ st.nodes, n.node_id ≠ newNode.node_id := by
    rw [hnew_id]
    exact fresh_not_mem st hCnt d
  have hvOf : ∀ x, versionsOf st' x =
      versionsOf st x ++ (if v1.node_id = x then [v1] else []) :=
    fun x => versionsOf_append st st'.versions v1 hvers x
  refine ⟨?_, ?_, ?_, ?_⟩
  · rw [hnodes, List.map_append, List.map_map]
    have hcomp : ((fun n : Node => n.node_id) ∘ g) = fun n : Node => (g n).node_id := rfl
    rw [hcomp, List.map_congr_left (fun (n : Node) _ => hg_id n),
      List.map_cons, List.map_nil]
    refine List.Nodup.append hNodup (List.nodup_singleton _) ?_
    rw [List.disjoint_singleton]
    intro hmemid
    obtain ⟨n, hn, he⟩ := List.mem_map.mp hmemid
    exact hfresh n hn he
  · intro n' hmem'
    rw [hnodes] at hmem'
    rcases List.mem_append.mp hmem' with h | h
    · obtain ⟨n, hn, hfn⟩ := List.mem_map.mp h
      subst hfn
      rw [hg_cv, hg_id, hvOf, hv_id,
        if_neg (fun he => hfresh n hn he.symm), List.append_nil]
      exact hDense n hn
    · rw [List.mem_singleton] at h
      subst h
      rw [hnew_cv, hvOf, hv_id, if_pos rfl, hnew_id, versionsOf_fresh st hInv' d,
        List.nil_append, List.map_cons, List.map_nil, hv_ver]
      exact ⟨Nat.le_refl 1, rfl⟩
  · intro v hv
    rw [hvers] at hv
    rcases List.mem_append.mp hv with h | h
    · obtain ⟨m, hm, he⟩ := hCoh v h
      refine ⟨g m, ?_, he.trans (hg_id m).symm⟩
      rw [hnodes]
      exact List.mem_append_left _ (List.mem_map_of_mem g hm)
    · rw [List.mem_singleton] at h
      subst h
      refine ⟨newNode, ?_, hv_id⟩
      rw [hnodes]
      exact List.mem_append_right _ (List.mem_singleton.mpr rfl)
  · intro n' hmem'
    rw [hnodes] at hmem'
    rcases List.mem_append.mp hmem' with h | h
    · obtain ⟨n, hn, hfn⟩ := List.mem_map.mp h
      subst hfn
      rw [hg_id, hcnt]
      exact counter_bound_bump st.counters d n.node_id (hCnt n hn)
    · rw [List.mem_singleton] at h
      subst h
      rw [hcnt, hnew_id]
      show counterOf st.counters d < counterOf (bumpCounter st.counters d) d
      rw [counterOf_bump_self]
      omega

lemma Inv_create (st : Store) (title : String) (p : Option NodeId) (a c : String)
    (hInv : Inv st) : Inv (create st title p a c).1 := by
  unfold create
  by_cases ht : title = ""
  · rw [if_pos ht]; exact hInv
  rw [if_neg ht]
  cases p with
  | none =>
    by_cases hdup : hasSibling st none title = true
    · rw [if_pos hdup]; exact hInv
    · rw [if_neg hdup]
      dsimp only
      refine Inv_insert st _ id 1
        { node_id := (allocId st.counters 1).1, title := title, depth := 1,
          parent_id := none, child_order := [], current_version := 1 }
        { node_id := (allocId st.counters 1).1, version := 1, content := c,
          author := a, summary := none, base_version := none }
        (fun n => rfl) (fun n => rfl) rfl rfl rfl rfl ?_ rfl rfl hInv
      show st.nodes ++ _ = st.nodes.map id ++ _
      rw [List.map_id]
  | some pid =>
    dsimp only
    cases hp : findNode st pid with
    | none => exact hInv
    | some q =>
      dsimp only
      by_cases hd6 : 6 < q.depth + 1
      · rw [if_pos hd6]; exact hInv
      rw [if_neg hd6]
      by_cases hdup : hasSibling st (some pid) title = true
      · rw [if_pos hdup]; exact hInv
      rw [if_neg hdup]
      dsimp only
      refine Inv_insert st _
        (fun n => if n.node_id = pid then
          { n with child_order := n.child_order ++ [(allocId st.counters (q.depth + 1)).1] }
          else n)
        (q.depth + 1)
        { node_id := (allocId st.counters (q.depth + 1)).1, title := title,
          depth := q.depth + 1, parent_id := some pid, child_order := [],
          current_version := 1 }
        { node_id := (allocId st.counters (q.depth + 1)).1, version := 1,
          content := c, author := a, summary := none, base_version := none }
        (fun n => ?_) (fun n => ?_) rfl rfl rfl rfl rfl rfl rfl hInv
      · dsimp only
        split <;> rfl
      · dsimp only
        split <;> rfl

lemma Inv_readNode (st : Store) (agent : String) (nid : NodeId) (h : Inv st) :
    Inv (readNode st agent nid).1 := by
  unfold readNode
  cases h1 : findNode st nid with
  | none =>
    cases h2 : latestVersion st nid <;> exact h
  | some node =>
    cases h2 : latestVersion st nid with
    | none => exact h
    | some w => exact Inv_of_eq _ _ rfl rfl rfl h

lemma Inv_submit_edit (st : Store) (agent : String) (nid : NodeId)
    (content : String) (summary : Option String) (h : Inv st) :
    Inv (submit_edit st agent nid content summary).1 := by
  unfold submit_edit
  cases h1 : findNode st nid with
  | none =>
    cases h2 : latestVersion st nid <;> exact h
  | some node =>
    cases h2 : latestVersion st nid with
    | none => exact h
    | some latest =>
      dsimp only
      cases h3 : observed st agent nid with
      | none => exact h
      | some obs =>
        dsimp only
        by_cases h4 : obs = latest.version
        · rw [if_pos h4]
          exact Inv_of_eq _ _ rfl rfl rfl
            (Inv_commitEdit st nid node none content agent summary h h1)
        · rw [if_neg h4]
          by_cases h5 : obs < latest.version
          · rw [if_pos h5]
            exact Inv_of_eq _ _ rfl rfl rfl h
          · rw [if_neg h5]
            exact h

lemma Inv_rename (st : Store) (nid : NodeId) (newTitle author : String)
    (h : Inv st) : Inv (rename st nid newTitle author).1 := by
  unfold rename
  by_cases ht : newTitle = ""
  · rw [if_pos ht]; exact h
  rw [if_neg ht]
  cases h1 : findNode st nid with
  | none => exact h
  | some node =>
    dsimp only
    by_cases hdup : hasOtherSibling st nid node.parent_id newTitle = true
    · rw [if_pos hdup]; exact h
    rw [if_neg hdup]
    cases h2 : latestVersion st nid with
    | none => exact h
    | some w =>
      dsimp only
      exact Inv_commitEdit st nid node (some newTitle) w.content author none h h1

lemma Inv_resolveOp (st : Store) (agent : String) (nid : NodeId)
    (action : Resolution) (merged : Option String) (h : Inv st) :
    Inv (resolveOp st agent nid action merged).1 := by
  unfold resolveOp
  cases h1 : pendingFor st nid agent with
  | none => exact h
  | some c =>
    dsimp only
    cases h2 : findNode st nid with
    | none => exact h
    | some node =>
      dsimp only
      cases action with
      | ACCEPT_THEIRS => exact Inv_of_eq _ _ rfl rfl rfl h
      | ACCEPT_YOURS =>
        exact Inv_of_eq _ _ rfl rfl rfl
          (Inv_commitEdit st nid node none c.losing_content agent c.losing_summary h h2)
      | MERGE =>
        cases merged with
        | none => exact h
        | some m =>
          exact Inv_of_eq _ _ rfl rfl rfl
            (Inv_commitEdit st nid node none m agent none h h2)

lemma Inv_step (st : Store) (op : Op) (h : Inv st) : Inv (step st op) := by
  cases op with
  | add t p a c => exact Inv_create st t p a c h
  | read a nid => exact Inv_readNode st a nid h
  | peek nid => exact h
  | edit a nid c s => exact Inv_submit_edit st a nid c s h
  | rename nid t a => exact Inv_rename st nid t a h
  | resolve a nid act m => exact Inv_resolveOp st a nid act m h

lemma Inv_runOps (ops : List Op) : Inv (runOps ops) := by
  have hgen : ∀ (l : List Op) (s : Store), Inv s → Inv (l.foldl step s) := by
    intro l
    induction l with
    | nil => exact fun s hs => hs
    | cons op l ih => exact fun s hs => ih (step s op) (Inv_step s op hs)
  exact hgen ops emptyStore Inv_emptyStore

/-- Claim C4: after any sequence of operations from the fresh store, every
node's version log is exactly the dense sequence 1..current_version in order,
and every single operation only ever appends to the version log (no gaps, no
rewrites of existing versions). -/
theorem version_log_dense :
    (∀ (ops : List Op), ∀ n ∈ (runOps ops).nodes,
      (versionsOf (runOps ops) n.node_id).map (fun v => v.version) =
        List.range' 1 n.current_version) ∧
    (∀ (st : Store) (op : Op), ∃ app, (step st op).versions = st.versions ++ app) := by
  constructor
  · intro ops n hn
    exact ((Inv_runOps ops).2.1 n hn).2
  · intro st op
    cases op with
    | add t p a c =>
      show ∃ app, (create st t p a c).1.versions = st.versions ++ app
      unfold create
      repeat' split
      all_goals first
        | exact ⟨[], (List.append_nil _).symm⟩
        | exact ⟨_, rfl⟩
    | read a nid =>
      show ∃ app, (readNode st a nid).1.versions = st.versions ++ app
      unfold readNode
      repeat' split
      all_goals exact ⟨[], (List.append_nil _).symm⟩
    | peek nid => exact ⟨[], (List.append_nil _).symm⟩
    | edit a nid c s =>
      show ∃ app, (submit_edit st a nid c s).1.versions = st.versions ++ app
      unfold submit_edit
      repeat' split
      all_goals first
        | exact ⟨[], (List.append_nil _).symm⟩
        | exact ⟨_, rfl⟩
    | rename nid t a =>
      show ∃ app, (Niwa.rename st nid t a).1.versions = st.versions ++ app
      unfold Niwa.rename
      repeat' split
      all_goals first
        | exact ⟨[], (List.append_nil _).symm⟩
        | exact ⟨_, rfl⟩
    | resolve a nid act m =>
      show ∃ app, (resolveOp st a nid act m).1.versions = st.versions ++ app
      unfold resolveOp
      repeat' split
      all_goals first
        | exact ⟨[], (List.append_nil _).symm⟩
        | exact ⟨_, rfl⟩

/-- Witness for C4: in the example scenario (one add, two reads, one edit)
the node's log is exactly the versions 1, 2. -/
theorem version_log_dense_witness :
    (versionsOf exampleStore ⟨1, 0⟩).map (fun v => v.version) = List.range' 1 2 := by
  have h := version_log_dense.1
    [Op.add "A" none "a1" "", Op.read "a1" ⟨1, 0⟩, Op.read "a2" ⟨1, 0⟩,
     Op.edit "a1" ⟨1, 0⟩ "x" none]
    { node_id := ⟨1, 0⟩, title := "A", depth := 1, parent_id := none,
      child_order := [], current_version := 2 }
    (by decide)
  exact h

lemma trimEnd_cons_eq {α : Type} (p : α → Bool) (x : α) (xs : List α) :
    trimEnd p (x :: xs) =
      if ((trimEnd p xs).isEmpty && p x) = true then [] else x :: trimEnd p xs := rfl

lemma trimEnd_append_sat {α : Type} (p : α → Bool) (l : List α) (b : α)
    (hb : p b = true) : trimEnd p (l ++ [b]) = trimEnd p l := by
  induction l with
  | nil => simp [trimEnd, hb]
  | cons x xs ih =>
    rw [List.cons_append, trimEnd_cons_eq, ih, ← trimEnd_cons_eq]

lemma trimEnd_idem {α : Type} (p : α → Bool) (l : List α) :
    trimEnd p (trimEnd p l) = trimEnd p l := by
  induction l with
  | nil => rfl
  | cons x xs ih =>
    rw [trimEnd_cons_eq]
    by_cases hc : ((trimEnd p xs).isEmpty && p x) = true
    · rw [if_pos hc]
      rfl
    · rw [if_neg hc, trimEnd_cons_eq, ih, if_neg hc]

lemma trimEnd_cons_shape {α : Type} (p : α → Bool) (x : α) (l : List α) :
    trimEnd p (x :: l) = [] ∨ ∃ r, trimEnd p (x :: l) = x :: r := by
  rw [trimEnd_cons_eq]
  by_cases hc : ((trimEnd p l).isEmpty && p x) = true
  · rw [if_pos hc]
    exact Or.inl rfl
  · rw [if_neg hc]
    exact Or.inr ⟨trimEnd p l, rfl⟩

lemma mem_trimEnd {α : Type} (p : α → Bool) (l : List α) (x : α)
    (h : x ∈ trimEnd p l) : x ∈ l := by
  induction l with
  | nil => cases h
  | cons y ys ih =>
    rw [trimEnd_cons_eq] at h
    by_cases hc : ((trimEnd p ys).isEmpty && p y) = true
    · rw [if_pos hc] at h
      cases h
    · rw [if_neg hc] at h
      rcases List.mem_cons.mp h with h | h
      · exact h ▸ List.mem_cons_self y ys
      · exact List.mem_cons_of_mem y (ih h)

lemma head_of_dropWhile {α : Type} (p : α → Bool) (l : List α) (x : α) (r : List α)
    (h : l.dropWhile p = x :: r) : p x = false := by
  induction l with
  | nil => cases h
  | cons y ys ih =>
    rw [List.dropWhile_cons] at h
    by_cases hy : p y = true
    · rw [if_pos hy] at h
      exact ih h
    · rw [if_neg hy] at h
      cases h
      simpa using hy

lemma mem_of_dropWhile {α : Type} (p : α → Bool) (l : List α) (x : α)
    (h : x ∈ l.dropWhile p) : x ∈ l :=
  (List.dropWhile_sublist p).mem h

lemma dropWhile_trimEnd_dropWhile {α : Type} (p : α → Bool) (l : List α) :
    (trimEnd p (l.dropWhile p)).dropWhile p = trimEnd p (l.dropWhile p) := by
  cases hm : l.dropWhile p with
  | nil => rfl
  | cons x m =>
    have hx : p x = false := head_of_dropWhile p l x m hm
    rcases trimEnd_cons_shape p x m with h | ⟨r, h⟩
    · rw [h]
      rfl
    · rw [h, List.dropWhile_cons, if_neg (by simp [hx])]

lemma stripBlanks_idem (l : List Line) :
    stripBlanks (stripBlanks l) = stripBlanks l := by
  unfold stripBlanks
  rw [dropWhile_trimEnd_dropWhile, trimEnd_idem]

lemma trimLine_idem (l : Line) : trimLine (trimLine l) = trimLine l := by
  unfold trimLine
  rw [dropWhile_trimEnd_dropWhile, trimEnd_idem]

lemma mem_stripBlanks (l : List Line) (x : Line) (h : x ∈ stripBlanks l) : x ∈ l :=
  mem_of_dropWhile isBlank l x (mem_trimEnd isBlank (l.dropWhile isBlank) x h)

lemma stripBlanks_block (b : List Line) :
    stripBlanks (([] : Line) :: (stripBlanks b ++ [([] : Line)])) = stripBlanks b := by
  have hblank : isBlank ([] : Line) = true := rfl
  unfold stripBlanks
  rw [List.dropWhile_cons, if_pos (by simp [hblank])]
  cases hm : b.dropWhile isBlank with
  | nil => rfl
  | cons x m =>
    have hx : isBlank x = false := head_of_dropWhile isBlank b x m hm
    rcases trimEnd_cons_shape isBlank x m with h | ⟨r, h⟩
    · rw [h]
      rfl
    · rw [h, List.cons_append, List.dropWhile_cons, if_neg (by simp [hx]),
        ← List.cons_append, trimEnd_append_sat isBlank (x :: r) ([] : Line) hblank,
        ← h, trimEnd_idem, h]

lemma headDepth_headingLine (dep : Nat) (t : Line) :
    headDepth (headingLine dep t) = dep := by
  unfold headDepth headingLine
  induction dep with
  | zero =>
    rw [List.replicate_zero, List.nil_append, List.takeWhile_cons,
      if_neg (by decide)]
    rfl
  | succ n ih =>
    rw [List.replicate_succ, List.cons_append, List.takeWhile_cons,
      if_pos (by decide), List.length_cons, ih]

lemma drop_headingLine (dep : Nat) (t : Line) :
    (headingLine dep t).drop dep = ' ' :: t := by
  unfold headingLine
  induction dep with
  | zero => rfl
  | succ n ih =>
    rw [List.replicate_succ, List.cons_append, List.drop_succ_cons]
    exact ih

lemma isHeading_headingLine (dep : Nat) (t : Line) (h1 : 1 ≤ dep) (h6 : dep ≤ 6)
    (ht : t ≠ []) : isHeading (headingLine dep t) = true := by
  unfold isHeading
  rw [headDepth_headingLine]
  dsimp only
  rw [drop_headingLine]
  cases t with
  | nil => exact absurd rfl ht
  | cons c cs => simp [h1, h6]

lemma titleOf_headingLine (dep : Nat) (t : Line) (ht : trimLine t = t) :
    titleOf (headingLine dep t) = t := by
  unfold titleOf
  rw [headDepth_headingLine, drop_headingLine]
  unfold trimLine at ht ⊢
  rw [List.dropWhile_cons, if_pos (by decide)]
  exact ht

lemma isHeading_bounds (l : Line) (h : isHeading l = true) :
    1 ≤ headDepth l ∧ headDepth l ≤ 6 := by
  unfold isHeading at h
  simp only [Bool.and_eq_true, decide_eq_true_eq] at h
  exact ⟨h.1.1, h.1.2⟩

lemma segs_cons_eq (l : Line) (ls : List Line) :
    segs (l :: ls) =
      if isHeading l = true then ([], (l, (segs ls).1) :: (segs ls).2)
      else (l :: (segs ls).1, (segs ls).2) := rfl

lemma segs_facts (ls : List Line) :
    (∀ l ∈ (segs ls).1, isHeading l = false) ∧
    (∀ hb ∈ (segs ls).2, isHeading hb.1 = true ∧ ∀ l ∈ hb.2, isHeading l = false) := by
  induction ls with
  | nil =>
    constructor
    · intro l h
      cases h
    · intro hb h
      cases h
  | cons l ls ih =>
    rw [segs_cons_eq]
    by_cases hl : isHeading l = true
    · rw [if_pos hl]
      constructor
      · intro x hx
        cases hx
      · intro hb hhb
        rcases List.mem_cons.mp hhb with h | h
        · subst h
          exact ⟨hl, ih.1⟩
        · exact ih.2 hb h
    · rw [if_neg hl]
      constructor
      · intro x hx
        rcases List.mem_cons.mp hx with h | h
        · subst h
          simpa using hl
        · exact ih.1 x h
      · exact ih.2

lemma segs_append_no_heading (xs ys : List Line)
    (h : ∀ l ∈ xs, isHeading l = false) :
    segs (xs ++ ys) = (xs ++ (segs ys).1, (segs ys).2) := by
  induction xs with
  | nil => simp
  | cons x xs ih =>
    rw [List.cons_append, segs_cons_eq,
      ih (fun l hl => h l (List.mem_cons_of_mem _ hl)),
      if_neg (by simp [h x (List.mem_cons_self x xs)])]
    rfl

lemma segs_serialize_blocks (entries : List Entry)
    (hh : ∀ e ∈ entries, isHeading (headingLine e.depth e.title) = true)
    (hc : ∀ e ∈ entries, ∀ l ∈ e.content, isHeading l = false) :
    segs (entries.flatMap (fun e =>
      headingLine e.depth e.title :: ([] : Line) :: (e.content ++ [([] : Line)]))) =
      ([], entries.map (fun e =>
        (headingLine e.depth e.title, ([] : Line) :: (e.content ++ [([] : Line)])))) := by
  induction entries with
  | nil => rfl
  | cons e rest ih =>
    have hbody : ∀ l ∈ ([] : Line) :: (e.content ++ [([] : Line)]),
        isHeading l = false := by
      intro l hl
      rcases List.mem_cons.mp hl with h | h
      · subst h
        rfl
      · rcases List.mem_append.mp h with h | h
        · exact hc e (List.mem_cons_self e rest) l h
        · rw [List.mem_singleton.mp h]
          rfl
    rw [List.flatMap_cons, List.cons_append, segs_cons_eq,
      if_pos (hh e (List.mem_cons_self e rest)),
      segs_append_no_heading _ _ hbody,
      ih (fun x hx => hh x (List.mem_cons_of_mem _ hx))
         (fun x hx => hc x (List.mem_cons_of_mem _ hx))]
    rw [List.map_cons, List.append_nil]

lemma attachParents_payload (items : List (Nat × Line × List Line)) :
    ∀ (prev : List Nat) (es : List Entry), attachParents prev items = Except.ok es →
      es.map (fun e => (e.depth, e.title, e.content)) = items := by
  induction items with
  | nil =>
    intro prev es h
    unfold attachParents at h
    cases h
    rfl
  | cons it rest ih =>
    intro prev es h
    obtain ⟨d0, t0, c0⟩ := it
    unfold attachParents at h
    cases hq : (if d0 ≤ 1 then Except.ok (none : Option Nat)
        else
          match lastLower prev d0 with
          | some j => Except.ok (some j)
          | none => Except.error CodecErr.orphanedHeading) with
    | error e =>
      rw [hq] at h
      cases h
    | ok p =>
      rw [hq] at h
      dsimp only at h
      cases hrec : attachParents (prev ++ [d0]) rest with
      | error e =>
        rw [hrec] at h
        cases h
      | ok es' =>
        rw [hrec] at h
        cases h
        rw [List.map_cons, ih (prev ++ [d0]) es' hrec]

/-- Claim C7 (amended): for every markdown input (as its list of lines) that
parses successfully and whose parsed headings all carry a non-empty trimmed
title, one parse and serialize pass canonicalizes the document and the second
round-trip is the identity: parse (serialize (parse M)) = parse M. -/
theorem parse_serialize_parse (ls : List Line) (d : Doc)
    (hpar : parseLines ls = Except.ok d)
    (ht : ∀ e ∈ d.entries, e.title ≠ []) :
    parseLines (serialize d) = Except.ok d := by
  unfold parseLines at hpar
  dsimp only at hpar
  cases hap : attachParents []
      ((segs ls).2.map (fun hb => (headDepth hb.1, titleOf hb.1, stripBlanks hb.2))) with
  | error e =>
    rw [hap] at hpar
    cases hpar
  | ok es =>
    rw [hap] at hpar
    dsimp only at hpar
    injection hpar with hd
    subst hd
    have hpayload := attachParents_payload _ [] es hap
    have hsf := segs_facts ls
    have hpre_nh : ∀ l ∈ stripBlanks (segs ls).1, isHeading l = false :=
      fun l hl => hsf.1 l (mem_stripBlanks _ l hl)
    have hent : ∀ e ∈ es, (1 ≤ e.depth ∧ e.depth ≤ 6) ∧ trimLine e.title = e.title ∧
        stripBlanks e.content = e.content ∧ ∀ l ∈ e.content, isHeading l = false := by
      intro e he
      have hmem : (e.depth, e.title, e.content) ∈
          (segs ls).2.map (fun hb => (headDepth hb.1, titleOf hb.1, stripBlanks hb.2)) := by
        rw [← hpayload]
        exact List.mem_map_of_mem (fun e => (e.depth, e.title, e.content)) he
      obtain ⟨hb, hhb, heq⟩ := List.mem_map.mp hmem
      have hdep : headDepth hb.1 = e.depth := congrArg (fun x => x.1) heq
      have htit : titleOf hb.1 = e.title := congrArg (fun x => x.2.1) heq
      have hcon : stripBlanks hb.2 = e.content := congrArg (fun x => x.2.2) heq
      obtain ⟨hhead, hbody⟩ := hsf.2 hb hhb
      refine ⟨hdep ▸ isHeading_bounds hb.1 hhead, ?_, ?_, ?_⟩
      · rw [← htit]
        unfold titleOf
        exact trimLine_idem _
      · rw [← hcon]
        exact stripBlanks_idem _
      · intro l hl
        rw [← hcon] at hl
        exact hbody l (mem_stripBlanks _ l hl)
    have hhh : ∀ e ∈ es, isHeading (headingLine e.depth e.title) = true := by
      intro e he
      exact isHeading_headingLine e.depth e.title ((hent e he).1).1 ((hent e he).1).2
        (ht e he)
    have hcc : ∀ e ∈ es, ∀ l ∈ e.content, isHeading l = false :=
      fun e he => ((hent e he).2).2.2
    have hsegser : segs (serialize
        { pre := stripBlanks (segs ls).1, entries := es }) =
        (stripBlanks (segs ls).1, es.map (fun e =>
          (headingLine e.depth e.title, ([] : Line) :: (e.content ++ [([] : Line)])))) := by
      unfold serialize
      dsimp only
      rw [segs_append_no_heading _ _ hpre_nh, segs_serialize_blocks es hhh hcc,
        List.append_nil]
    have hitems : ((es.map (fun e =>
        (headingLine e.depth e.title, ([] : Line) :: (e.content ++ [([] : Line)])))).map
          (fun hb => (headDepth hb.1, titleOf hb.1, stripBlanks hb.2))) =
        es.map (fun e => (e.depth, e.title, e.content)) := by
      rw [List.map_map]
      apply List.map_congr_left
      intro e he
      show (headDepth (headingLine e.depth e.title),
        titleOf (headingLine e.depth e.title),
        stripBlanks (([] : Line) :: (e.content ++ [([] : Line)]))) =
        (e.depth, e.title, e.content)
      have hstr : stripBlanks (([] : Line) :: (e.content ++ [([] : Line)])) = e.content := by
        conv in e.content ++ _ => rw [← ((hent e he).2).2.1]
        rw [stripBlanks_block]
        exact ((hent e he).2).2.1
      rw [headDepth_headingLine, titleOf_headingLine e.depth e.title ((hent e he).2).1,
        hstr]
    unfold parseLines
    dsimp only
    rw [hsegser]
    dsimp only
    rw [hitems, hpayload, hap]
    dsimp only
    rw [stripBlanks_idem]

/-- Counterexample to C7 as stated: the line consisting of a hash and two
spaces matches the spec's heading pattern with an empty trimmed title; its
serialized heading line (hash, space) no longer matches the pattern, so a
second parse yields a different document. -/
theorem parse_serialize_not_idempotent :
    parseLines [['#', ' ', ' ']] =
      Except.ok { pre := [], entries :=
        [{ depth := 1, title := [], content := [], parent := none }] } ∧
    parseLines (serialize { pre := [], entries :=
      [{ depth := 1, title := [], content := [], parent := none }] }) ≠
      Except.ok ({ pre := [], entries :=
        [{ depth := 1, title := [], content := [], parent := none }] } : Doc) := by
  constructor
  · decide
  · decide

/-- Witness for C7 (amended): a one-heading document round-trips exactly. -/
theorem parse_serialize_parse_witness :
    parseLines (serialize { pre := [], entries :=
      [{ depth := 1, title := ['A'], content := [], parent := none }] }) =
      Except.ok { pre := [], entries :=
        [{ depth := 1, title := ['A'], content := [], parent := none }] } :=
  parse_serialize_parse [['#', ' ', 'A']]
    { pre := [], entries := [{ depth := 1, title := ['A'], content := [], parent := none }] }
    (by decide) (by decide)

end Niwa
